import Mathlib

/-!
Verification development for the `intext` library: a shallow embedding of the
sliding-window chunker (`src/chunking.ts`, `buildChunks`), the per-window
extraction orchestrator, the final reduction step and the provenance tracker
(`src/index.ts`, `createIntext`/`extract`), together with theorems settling
the frozen specification claims.

Modelling conventions:
- JSON values are the inductive `JVal`; JavaScript numbers are modelled as
  integers (no claim involves non-integral arithmetic).
- Document text and tokens are lists of characters (`Str`), matching the
  character-offset arithmetic of the chunker.
- Fallible JavaScript execution (a thrown `TypeError` from an out-of-bounds
  array access or from `hasOwnProperty.call(null, _)`) is modelled with
  `Except Unit`.
- The external completion-call collaborator, the external `JSON.parse`
  builtin, the external `token-estimator` default tokenizer and the literal
  prompt strings (whose text is never inspected by any claim) are abstracted
  as components of an environment record `Env`; everything else is translated
  from the source.
-/

/-- JSON values as produced by `JSON.parse` of a completion response. -/
inductive JVal where
  | null : JVal
  | bool : Bool → JVal
  | num : Int → JVal
  | str : String → JVal
  | arr : List JVal → JVal
  | obj : List (String × JVal) → JVal

/-- A JavaScript object is modelled as an association list (insertion order,
first binding wins on lookup; objects produced by `JSON.parse` or object
literals never carry duplicate keys). -/
abbrev Obj := List (String × JVal)

/-- Association-list lookup, modelling JavaScript property lookup `o[k]`. -/
def alook {α : Type} (k : String) : List (String × α) → Option α
  | [] => none
  | p :: rest => if k = p.1 then some p.2 else alook k rest

/-- JavaScript object spread `{...a, ...b}`: bindings of `b` override those
of `a` (modelled up to lookup semantics). -/
def ospread (a b : Obj) : Obj :=
  a.filter (fun p => (alook p.1 b).isNone) ++ b

/-- JavaScript truthiness of a JSON value (`!v` negated). -/
def jsTruthy : JVal → Bool
  | .null => false
  | .bool b => b
  | .num n => n != 0
  | .str s => s != ""
  | .arr _ => true
  | .obj _ => true

/-- The values allowed inside a schema `enum` declaration
(`SchemaEnumValue = string | number | boolean | null`). -/
inductive EnumValue where
  | str : String → EnumValue
  | num : Int → EnumValue
  | bool : Bool → EnumValue
  | null : EnumValue

/-- `Object.is(allowed, value)` for an enum member against a JSON value:
primitive identity; an array or object is never identical to a scalar. -/
def enumMatches : EnumValue → JVal → Bool
  | .str a, .str b => a == b
  | .num a, .num b => a == b
  | .bool a, .bool b => a == b
  | .null, .null => true
  | _, _ => false

/-- `values.some(allowed => Object.is(allowed, v))`. -/
def enumHolds (es : List EnumValue) (v : JVal) : Bool :=
  es.any (fun a => enumMatches a v)

/-- The five values of the `type` discriminator of a schema node. -/
inductive SchemaType where
  | string | number | boolean | array | object
deriving DecidableEq

/-- A schema node (`SchemaNode` of the source): tagged union over the five
shapes, each carrying an optional description and an optional enumeration;
the array shape carries its item node, the object shape its properties and
optional `required` list. -/
inductive SchemaNode where
  | str : Option String → Option (List EnumValue) → SchemaNode
  | num : Option String → Option (List EnumValue) → SchemaNode
  | bool : Option String → Option (List EnumValue) → SchemaNode
  | arr : Option String → Option (List EnumValue) → SchemaNode → SchemaNode
  | obj : Option String → Option (List EnumValue) → List (String × SchemaNode) →
      Option (List String) → SchemaNode

/-- The `type` tag of a schema node. -/
def SchemaNode.typeOf : SchemaNode → SchemaType
  | .str _ _ => .string
  | .num _ _ => .number
  | .bool _ _ => .boolean
  | .arr _ _ _ => .array
  | .obj _ _ _ _ => .object

/-- The `enum` declaration of a schema node (`none` when absent). -/
def SchemaNode.enumOf : SchemaNode → Option (List EnumValue)
  | .str _ e => e
  | .num _ e => e
  | .bool _ e => e
  | .arr _ e _ => e
  | .obj _ e _ _ => e

/-- The root schema (`SchemaField = ObjectSchemaNode` of the source): an
object node given as its property list plus the unused optional fields. -/
structure SchemaField where
  properties : List (String × SchemaNode)
  description : Option String := none
  enum : Option (List EnumValue) := none
  required : Option (List String) := none

/-- Canonical numeric property key: `natKey? k = some n` iff `k` is the
canonical decimal numeral of `n` (JavaScript array-index keys). -/
def natKey? (k : String) : Option Nat :=
  match k.toNat? with
  | some n => if toString n = k then some n else none
  | none => none

/-- List indexing returning `none` out of bounds (JS `a[i]` giving
`undefined`). -/
def nth {α : Type} : List α → Nat → Option α
  | [], _ => none
  | a :: _, 0 => some a
  | _ :: as, n + 1 => nth as n

/-- `Object.prototype.hasOwnProperty.call(v, k)` combined with the property
read `v[k]`: `.ok none` when the property is absent, `.ok (some w)` when
present with value `w`, `.error ()` for the `TypeError` thrown when `v` is
`null`.  Arrays and (boxed) strings own their index keys and `length`;
boxed numbers and booleans own nothing. -/
def jOwnProp : JVal → String → Except Unit (Option JVal)
  | .null, _ => .error ()
  | .obj fs, k => .ok (alook k fs)
  | .arr xs, k =>
      .ok (if k = "length" then some (.num (Int.ofNat xs.length))
           else match natKey? k with
                | some n => nth xs n
                | none => none)
  | .str s, k =>
      .ok (if k = "length" then some (.num (Int.ofNat s.length))
           else match natKey? k with
                | some n => (nth s.toList n).map (fun ch => .str (String.mk [ch]))
                | none => none)
  | .bool _, _ => .ok none
  | .num _, _ => .ok none

/-- Normalization of one field value (source `index.ts` lines 310-329):
first the field-level enum check (skipped for `null`), then, for array
fields whose array survived, the item-enum filter (only when the declared
item enumeration is non-empty and the item type is neither object nor
array). -/
def normalizeField (field : SchemaNode) (v0 : JVal) : JVal :=
  let v1 : JVal :=
    match field.enumOf, v0 with
    | some _, .null => .null
    | some es, v => if enumHolds es v then v else .null
    | none, v => v
  match field, v1 with
  | .arr _ _ items, .arr xs =>
      (match items.enumOf with
       | some es =>
           if 0 < es.length ∧ items.typeOf ≠ SchemaType.object ∧
              items.typeOf ≠ SchemaType.array
           then .arr (xs.filter (fun e => enumHolds es e))
           else .arr xs
       | none => .arr xs)
  | _, v => v

/-- `mapE f l`: sequential fallible map (the per-field normalization loop /
the result-collection loop), stopping at the first thrown error. -/
def mapE {α β : Type} (f : α → Except Unit β) : List α → Except Unit (List β)
  | [] => .ok []
  | a :: as =>
      match f a with
      | .error e => .error e
      | .ok b =>
          match mapE f as with
          | .error e => .error e
          | .ok bs => .ok (b :: bs)

/-- Normalization of a parsed per-window response against the schema keys
(source `index.ts` lines 307-330): for every declared top-level field, read
the property from the parsed value (absent → `null`) and normalize it;
undeclared keys never enter the result.  Errors when the parsed value is
`null` and at least one field is declared (the `hasOwnProperty` call
throws). -/
def normalizeParsed (sch : SchemaField) (parsed : JVal) : Except Unit Obj :=
  mapE (fun p => do
    let v0 ← jOwnProp parsed p.1
    .ok (p.1, normalizeField p.2 (v0.getD .null))) sch.properties

/-- Document text and tokens: lists of characters, so that character
offsets are plain list indices. -/
abbrev Str := List Char

/-- `matchesAt tok l`: `tok` is an initial segment of `l` (the needle
matches at the head of the suffix). -/
def matchesAt : Str → Str → Bool
  | [], _ => true
  | _ :: _, [] => false
  | a :: as, b :: bs => a == b && matchesAt as bs

/-- `text.indexOf(tok, start)` (source `chunking.ts` line 36): the least
index `i ≥ min start length` at which `tok` occurs in `text`, `none` when
there is no occurrence (`-1`). -/
def indexOfFrom (text tok : Str) (start : Nat) : Option Nat :=
  ((List.range (text.length + 1)).filter
    (fun i => min start text.length ≤ i && matchesAt tok (text.drop i))).head?

/-- The token-index → character-span table (source `chunking.ts` lines
33-45): locate each token from the previous search cursor; a token with no
occurrence falls back to the cursor position and a length-clipped end. -/
def buildPositions (text : Str) : List Str → Nat → List (Nat × Nat)
  | [], _ => []
  | tok :: rest, searchIdx =>
      match indexOfFrom text tok searchIdx with
      | some found =>
          (found, found + tok.length) :: buildPositions text rest (found + tok.length)
      | none =>
          (searchIdx, min (searchIdx + tok.length) text.length) ::
            buildPositions text rest (searchIdx + tok.length)

/-- A window over the document (`Chunk` of the source). -/
structure Chunk where
  id : Nat
  text : Str
  startChar : Nat
  endChar : Nat
  tokens : List Str

/-- `text.slice(s, e)` for non-negative indices: clipped sub-range. -/
def strSlice (text : Str) (s e : Nat) : Str :=
  (text.drop s).take (e - s)

/-- The chunk-building loop of `buildChunks` (source `chunking.ts` lines
47-66).  `fuel` bounds the iteration count structurally; since the cursor
`i` advances by `max 1 (chunkTokens - overlapTokens) ≥ 1` per iteration and
the loop runs only while `i < tokens.length`, calling with
`fuel = tokens.length` preserves `tokens.length - i ≤ fuel`, so the
`fuel = 0` case coincides with the loop's own exit (`i ≥ tokens.length`).
The `.error` results model the `TypeError` thrown by
`tokenCharPositions[endToken - 1]` when `endToken = 0` (the second match
arm is unreachable while `positions` has one entry per token). -/
def buildChunksLoop (tokens : List Str) (text : Str) (positions : List (Nat × Nat))
    (chunkTokens overlapTokens : Nat) : Nat → Nat → Nat → Except Unit (List Chunk)
  | 0, _, _ => .ok []
  | fuel + 1, i, chunkId =>
      if i < tokens.length then
        if min (i + chunkTokens) tokens.length = 0 then .error ()
        else
          match nth positions (min (i + chunkTokens) tokens.length - 1),
              nth positions i with
          | some pe, some ps =>
              (match buildChunksLoop tokens text positions chunkTokens overlapTokens
                  fuel (i + max 1 (chunkTokens - overlapTokens)) (chunkId + 1) with
               | .error e => .error e
               | .ok rest =>
                   .ok ({ id := chunkId
                          text := strSlice text ps.1 pe.2
                          startChar := ps.1
                          endChar := pe.2
                          tokens := (tokens.drop i).take
                            (min (i + chunkTokens) tokens.length - i) } :: rest))
          | _, _ => .error ()
      else .ok []

/-- `buildChunks(text, chunkTokens, overlapTokens, tokenizer)` (source
`chunking.ts` lines 22-68). -/
def buildChunks (text : Str) (chunkTokens overlapTokens : Nat)
    (tokenizer : Str → List Str) : Except Unit (List Chunk) :=
  let tokens := tokenizer text
  if tokens.length = 0 then .ok []
  else
    buildChunksLoop tokens text (buildPositions text tokens 0)
      chunkTokens overlapTokens tokens.length 0 0

/-- Operationalized tokenizer contract (spec §4.1): every token is located
verbatim by the progressive `indexOf` search, i.e. the fallback branch of
the position table never fires. -/
def allFoundAux (text : Str) : List Str → Nat → Bool
  | [], _ => true
  | tok :: rest, searchIdx =>
      match indexOfFrom text tok searchIdx with
      | some found => allFoundAux text rest (found + tok.length)
      | none => false

/-- All tokens of the list are locatable in order (tokenizer contract). -/
def allFound (text : Str) (tokens : List Str) : Bool :=
  allFoundAux text tokens 0

/-- Outcome of one completion call: a thrown/rejected call, or a response
whose first choice's message content is the given optional string
(`resp?.choices?.[0]?.message?.content`, `none` when missing). -/
inductive CallOutcome where
  | fail : CallOutcome
  | resp : Option String → CallOutcome

/-- A Window Result (`ChunkResult` of the source): the window id, the
normalized field map, and the raw response text kept for diagnostics. -/
structure ChunkResult where
  chunkId : Nat
  parsed : Obj
  raw : String

/-- Construction-time configuration of `createIntext`: the library-level
`defaultRequestParams` (empty object when absent) and the per-instance
`clientParams` (whose `"model"` binding is required by the TypeScript
type). -/
structure Cfg where
  dParams : Obj
  cParams : Obj

/-- The external world of one `extract` run: the `JSON.parse` builtin, the
`token-estimator` default tokenizer, the prompt texts (abstracted: no claim
inspects them), and the completion-call collaborator's response to the
per-window request (keyed by window id) and to the reduction request. -/
structure Env where
  parseJson : String → Option JVal
  defaultTok : Str → List Str
  promptOf : Nat → String
  reducePromptOf : List ChunkResult → String
  call : Nat → Obj → CallOutcome
  reduceCall : Obj → CallOutcome

/-- The `response_format` default `{ type: "json_object" }`. -/
def jsonObjectFormat : JVal :=
  .obj [("type", .str "json_object")]

/-- Request-object construction shared by the per-window calls (source
`index.ts` lines 278-290) and the reduction call (lines 348-359): spread
`{stream:false, ...defaultRequestParams}`, then `clientParams`, then
`llmCallOptions`, then force `model` to `clientParams.model` and `messages`
to the single user message holding the prompt; finally default
`response_format` to the JSON-object format unless already set to a truthy
value. -/
def requestBase (dParams cParams lOpts : Obj) (prompt : String) : Obj :=
  ospread (ospread (ospread (ospread [("stream", .bool false)] dParams) cParams) lOpts)
    [("model", (alook "model" cParams).getD .null),
     ("messages", .arr [.obj [("role", .str "user"), ("content", .str prompt)]])]

def mkRequestBody (dParams cParams lOpts : Obj) (prompt : String) : Obj :=
  match alook "response_format" (requestBase dParams cParams lOpts prompt) with
  | some v =>
      if jsTruthy v then requestBase dParams cParams lOpts prompt
      else ospread (requestBase dParams cParams lOpts prompt)
        [("response_format", jsonObjectFormat)]
  | none =>
      ospread (requestBase dParams cParams lOpts prompt)
        [("response_format", jsonObjectFormat)]

/-- The request body issued for window `id` (worker, source `index.ts`
lines 278-290). -/
def windowRequest (env : Env) (cfg : Cfg) (lOpts : Obj) (id : Nat) : Obj :=
  mkRequestBody cfg.dParams cfg.cParams lOpts (env.promptOf id)

/-- The raw response string extracted from a call outcome: a thrown call or
a missing content field degrade to `""` (worker `catch` branch and the
`?? ""` fallback). -/
def rawOf : CallOutcome → String
  | .fail => ""
  | .resp c => c.getD ""

/-- `parsed` of the worker (source `index.ts` lines 300-305): the empty
string short-circuits to `{}`, a `JSON.parse` failure is caught to `{}`. -/
def parsedOf (parseJson : String → Option JVal) (raw : String) : JVal :=
  if raw = "" then .obj []
  else (parseJson raw).getD (.obj [])

/-- One worker iteration for one window (source `index.ts` lines 273-332):
issue the completion call, degrade failures to `""`, parse, normalize, and
build the Window Result.  The only possible error is the `TypeError` of
`normalizeParsed` on a response that parses to JSON `null`, which escapes
the worker's `try` block and rejects the whole run. -/
def processChunk (env : Env) (cfg : Cfg) (lOpts : Obj) (sch : SchemaField)
    (c : Chunk) : Except Unit ChunkResult :=
  match normalizeParsed sch (parsedOf env.parseJson
      (rawOf (env.call c.id (windowRequest env cfg lOpts c.id)))) with
  | .error e => .error e
  | .ok normalized =>
      .ok { chunkId := c.id, parsed := normalized
            raw := rawOf (env.call c.id (windowRequest env cfg lOpts c.id)) }

/-- Result collection by the worker pool: the shared-pointer claim loop
hands each window index to exactly one worker, and results are pushed in
completion order; `order` is that completion order (a permutation of the
window indices in any real run). -/
def collectResults (env : Env) (cfg : Cfg) (lOpts : Obj) (sch : SchemaField)
    (chunks : List Chunk) (order : List Nat) : Except Unit (List ChunkResult) :=
  mapE (processChunk env cfg lOpts sch) (order.filterMap (nth chunks))

/-- Stable insertion into a list sorted ascending by `chunkId`. -/
def insertByChunkId (r : ChunkResult) : List ChunkResult → List ChunkResult
  | [] => [r]
  | x :: xs =>
      if x.chunkId < r.chunkId then x :: insertByChunkId r xs
      else r :: x :: xs

/-- `rawResults.sort((a, b) => a.chunkId - b.chunkId)` (source `index.ts`
line 344): stable ascending sort by window id, modelled by insertion
sort. -/
def sortResults : List ChunkResult → List ChunkResult
  | [] => []
  | r :: rs => insertByChunkId r (sortResults rs)

/-- The outcome of the single reduction call over the sorted results. -/
def reduceOutcome (env : Env) (cfg : Cfg) (lOpts : Obj)
    (results : List ChunkResult) : CallOutcome :=
  env.reduceCall (mkRequestBody cfg.dParams cfg.cParams lOpts (env.reducePromptOf results))

/-- Whether a parsed value passes
`parsed && typeof parsed === 'object' && !Array.isArray(parsed)`. -/
def isPlainObject : JVal → Bool
  | .obj _ => true
  | _ => false

/-- The final object of the reduction step (source `index.ts` lines
363-383): a thrown call, an empty/unparsable response, or a parsed value
that is not a plain object all fall back to the empty object `{}`. -/
def reduceFinal (env : Env) (cfg : Cfg) (lOpts : Obj)
    (results : List ChunkResult) : JVal :=
  match reduceOutcome env cfg lOpts results with
  | .fail => .obj []
  | .resp content =>
      match (if content.getD "" = "" then none
             else env.parseJson (content.getD "")) with
      | some v => if isPlainObject v then v else .obj []
      | none => .obj []

/-- Whether a normalized Window Result holds a non-null value for a field
(`r.parsed[fieldId] !== null && r.parsed[fieldId] !== undefined`). -/
def nonNullField (fid : String) (r : ChunkResult) : Bool :=
  match alook fid r.parsed with
  | some .null => false
  | some _ => true
  | none => false

/-- Provenance (source `index.ts` lines 386-392): for every declared field
name, the ids of the (sorted) Window Results holding a non-null value. -/
def provenance (sch : SchemaField) (results : List ChunkResult) :
    List (String × List Nat) :=
  sch.properties.map (fun p =>
    (p.1, (results.filter (nonNullField p.1)).map (fun r => r.chunkId)))

/-- The options record of `extract` (`ExtractOptions`); `schema` is
`Option` because the missing-schema guard `if (!schema)` is reachable at
run time.  `concurrency` and `debug` have no observable effect in the
model: concurrency is captured by the completion order `order`, and debug
only logs. -/
structure ExtractOptions where
  schema : Option SchemaField
  chunkTokens : Option Nat := none
  overlapTokens : Option Nat := none
  concurrency : Option Nat := none
  tokenizer : Option (Str → List Str) := none
  llmCallOptions : Option Obj := none
  debug : Option Bool := none

/-- The result of `extract` (`ExtractResult`, with the `metadata` record
flattened: `chunkCount`, `perFieldProvenance`, `rawChunkResults`). -/
structure ExtractResult where
  json : JVal
  chunkCount : Nat
  perFieldProvenance : List (String × List Nat)
  rawChunkResults : List ChunkResult

/-- `extract(text, opts)` (source `index.ts` lines 244-403): guard the
missing schema, build the windows, run the per-window workers (results in
completion order `order`), sort by window id, run the single reduction
call, and compute provenance from the sorted normalized results.  A
`TypeError` escaping the chunker or a worker rejects the run. -/
def extract (cfg : Cfg) (env : Env) (order : List Nat) (text : Str)
    (opts : ExtractOptions) : Except String ExtractResult :=
  match opts.schema with
  | none => .error "schema is required"
  | some sch =>
      match buildChunks text (opts.chunkTokens.getD 1500) (opts.overlapTokens.getD 300)
          (opts.tokenizer.getD env.defaultTok) with
      | .error _ => .error "TypeError"
      | .ok chunks =>
          match collectResults env cfg (opts.llmCallOptions.getD []) sch chunks order with
          | .error _ => .error "TypeError"
          | .ok collected =>
              .ok { json := reduceFinal env cfg (opts.llmCallOptions.getD [])
                      (sortResults collected)
                    chunkCount := chunks.length
                    perFieldProvenance := provenance sch (sortResults collected)
                    rawChunkResults := sortResults collected }

theorem alook_eq_none {α : Type} {k : String} {l : List (String × α)} :
    alook k l = none ↔ k ∉ l.map Prod.fst := by
  induction l with
  | nil => simp [alook]
  | cons p rest ih =>
      by_cases h : k = p.1 <;> simp [alook, h, ih]

theorem alook_map_pair {α β : Type} (h : String → α → β) (k : String)
    (l : List (String × α)) :
    alook k (l.map (fun p => (p.1, h p.1 p.2))) = (alook k l).map (h k) := by
  induction l with
  | nil => rfl
  | cons p rest ih =>
      by_cases hk : k = p.1
      · subst hk; simp [alook]
      · simp [alook, hk, ih]

theorem alook_filter_out {k : String} {b : Obj} (a : Obj)
    (hb : (alook k b).isSome) :
    alook k (a.filter (fun p => (alook p.1 b).isNone)) = none := by
  induction a with
  | nil => rfl
  | cons p rest ih =>
      by_cases hk : k = p.1
      · subst hk
        simp only [List.filter]
        rw [show ((alook p.1 b).isNone) = false by
              cases hal : alook p.1 b <;> simp_all [Option.isNone, Option.isSome]]
        exact ih
      · simp only [List.filter]
        cases hp : (alook p.1 b).isNone
        · exact ih
        · simpa [alook, hk] using ih

theorem alook_filter_keep {k : String} {b : Obj} (a : Obj)
    (hb : alook k b = none) :
    alook k (a.filter (fun p => (alook p.1 b).isNone)) = alook k a := by
  induction a with
  | nil => rfl
  | cons p rest ih =>
      by_cases hk : k = p.1
      · subst hk
        simp only [List.filter, hb, Option.isNone]
        simp [alook, ih]
      · simp only [List.filter]
        cases hp : (alook p.1 b).isNone
        · rw [ih]; simp [alook, hk]
        · simp [alook, hk, ih]

theorem alook_append {α : Type} (k : String) (a b : List (String × α)) :
    alook k (a ++ b) =
      match alook k a with
      | some v => some v
      | none => alook k b := by
  induction a with
  | nil => simp [alook]
  | cons p rest ih =>
      by_cases hk : k = p.1 <;> simp [alook, hk, ih]

theorem alook_ospread (k : String) (a b : Obj) :
    alook k (ospread a b) =
      match alook k b with
      | some v => some v
      | none => alook k a := by
  unfold ospread
  rw [alook_append]
  cases hb : alook k b with
  | some v =>
      rw [alook_filter_out a (by simp [hb, Option.isSome])]
  | none =>
      rw [alook_filter_keep a hb]
      cases alook k a <;> simp

theorem nth_isSome_of_lt {α : Type} {l : List α} {n : Nat} (h : n < l.length) :
    ∃ a, nth l n = some a := by
  induction l generalizing n with
  | nil => simp at h
  | cons x xs ih =>
      cases n with
      | zero => exact ⟨x, rfl⟩
      | succ m => exact ih (Nat.lt_of_succ_lt_succ h)

theorem nth_mem {α : Type} {l : List α} {n : Nat} {a : α}
    (h : nth l n = some a) : a ∈ l := by
  induction l generalizing n with
  | nil => simp [nth] at h
  | cons x xs ih =>
      cases n with
      | zero =>
          injection h with h'
          subst h'
          exact List.mem_cons_self _ _
      | succ m => exact List.mem_cons_of_mem _ (ih h)

theorem nth_map {α β : Type} (f : α → β) (l : List α) (n : Nat) :
    nth (l.map f) n = (nth l n).map f := by
  induction l generalizing n with
  | nil => rfl
  | cons x xs ih => cases n with
      | zero => rfl
      | succ m => exact ih m

theorem nth_append_left {α : Type} {l₁ : List α} (l₂ : List α) {n : Nat}
    (h : n < l₁.length) : nth (l₁ ++ l₂) n = nth l₁ n := by
  induction l₁ generalizing n with
  | nil => simp at h
  | cons x xs ih =>
      cases n with
      | zero => rfl
      | succ m => exact ih (Nat.lt_of_succ_lt_succ h)

theorem nth_append_self {α : Type} (l : List α) (a : α) :
    nth (l ++ [a]) l.length = some a := by
  induction l with
  | nil => rfl
  | cons x xs ih => exact ih

theorem nth_range {n m : Nat} (h : n < m) : nth (List.range m) n = some n := by
  induction m with
  | zero => simp at h
  | succ k ih =>
      rw [List.range_succ]
      rcases Nat.lt_or_ge n k with hlt | hge
      · rw [nth_append_left _ (by simpa using hlt)]
        exact ih hlt
      · have hn : n = k := Nat.le_antisymm (Nat.lt_succ_iff.mp h) hge
        subst hn
        have := nth_append_self (List.range n) n
        rwa [List.length_range] at this

theorem mapE_eq_map {α β : Type} {f : α → Except Unit β} {g : α → β}
    {l : List α} (h : ∀ a ∈ l, f a = .ok (g a)) :
    mapE f l = .ok (l.map g) := by
  induction l with
  | nil => rfl
  | cons a as ih =>
      simp only [mapE, h a (List.mem_cons_self a as),
        ih (fun x hx => h x (List.mem_cons_of_mem a hx)), List.map]

theorem mapE_ok_forall₂ {α β : Type} {f : α → Except Unit β}
    {l : List α} {bl : List β} (h : mapE f l = .ok bl) :
    List.Forall₂ (fun a b => f a = .ok b) l bl := by
  induction l generalizing bl with
  | nil =>
      cases bl with
      | nil => exact List.Forall₂.nil
      | cons b bs => simp [mapE] at h
  | cons a as ih =>
      simp only [mapE] at h
      cases hfa : f a with
      | error e => rw [hfa] at h; cases h
      | ok b =>
          rw [hfa] at h
          cases hrest : mapE f as with
          | error e => rw [hrest] at h; cases h
          | ok bs =>
              rw [hrest] at h
              injection h with h'
              subst h'
              exact List.Forall₂.cons hfa (ih hrest)

theorem mapE_isOk {α β : Type} {f : α → Except Unit β} {l : List α}
    (h : ∀ a ∈ l, ∃ b, f a = .ok b) : ∃ bl, mapE f l = .ok bl := by
  induction l with
  | nil => exact ⟨[], rfl⟩
  | cons a as ih =>
      obtain ⟨b, hb⟩ := h a (List.mem_cons_self a as)
      obtain ⟨bs, hbs⟩ := ih (fun x hx => h x (List.mem_cons_of_mem a hx))
      exact ⟨b :: bs, by simp [mapE, hb, hbs]⟩

theorem forall₂_mem_left {α β : Type} {R : α → β → Prop} {l : List α}
    {bl : List β} (h : List.Forall₂ R l bl) {a : α} (ha : a ∈ l) :
    ∃ b, b ∈ bl ∧ R a b := by
  induction h with
  | nil => cases ha
  | cons hr hrest ih =>
      rcases List.mem_cons.mp ha with rfl | hmem
      · exact ⟨_, List.mem_cons_self _ _, hr⟩
      · obtain ⟨b, hb, hrb⟩ := ih hmem
        exact ⟨b, List.mem_cons_of_mem _ hb, hrb⟩

theorem forall₂_mem_right {α β : Type} {R : α → β → Prop} {l : List α}
    {bl : List β} (h : List.Forall₂ R l bl) {b : β} (hb : b ∈ bl) :
    ∃ a, a ∈ l ∧ R a b := by
  induction h with
  | nil => cases hb
  | cons hr hrest ih =>
      rcases List.mem_cons.mp hb with rfl | hmem
      · exact ⟨_, List.mem_cons_self _ _, hr⟩
      · obtain ⟨a, ha, hra⟩ := ih hmem
        exact ⟨a, List.mem_cons_of_mem _ ha, hra⟩

theorem map_eq_of_forall₂ {α β γ : Type} {g : β → γ} {h : α → γ}
    {l : List α} {bl : List β}
    (hf : List.Forall₂ (fun a b => g b = h a) l bl) :
    bl.map g = l.map h := by
  induction hf with
  | nil => rfl
  | cons hr hrest ih => simp [List.map, hr, ih]

theorem insertByChunkId_perm (r : ChunkResult) (l : List ChunkResult) :
    List.Perm (insertByChunkId r l) (r :: l) := by
  induction l with
  | nil => exact List.Perm.refl _
  | cons x xs ih =>
      simp only [insertByChunkId]
      by_cases h : x.chunkId < r.chunkId
      · rw [if_pos h]
        exact List.Perm.trans (List.Perm.cons x ih) (List.Perm.swap r x xs)
      · rw [if_neg h]

theorem sortResults_perm (l : List ChunkResult) :
    List.Perm (sortResults l) l := by
  induction l with
  | nil => exact List.Perm.refl _
  | cons r rs ih =>
      exact List.Perm.trans (insertByChunkId_perm r (sortResults rs))
        (List.Perm.cons r ih)

theorem insertByChunkId_sorted {r : ChunkResult} {l : List ChunkResult}
    (h : l.Pairwise (fun a b => a.chunkId ≤ b.chunkId)) :
    (insertByChunkId r l).Pairwise (fun a b => a.chunkId ≤ b.chunkId) := by
  induction l with
  | nil => simp [insertByChunkId]
  | cons x xs ih =>
      rcases List.pairwise_cons.mp h with ⟨hx, hxs⟩
      simp only [insertByChunkId]
      by_cases hlt : x.chunkId < r.chunkId
      · rw [if_pos hlt]
        refine List.pairwise_cons.mpr ⟨?_, ih hxs⟩
        intro y hy
        have hy' := (insertByChunkId_perm r xs).mem_iff.mp hy
        rcases List.mem_cons.mp hy' with rfl | hmem
        · exact Nat.le_of_lt hlt
        · exact hx y hmem
      · rw [if_neg hlt]
        refine List.pairwise_cons.mpr ⟨?_, h⟩
        intro y hy
        rcases List.mem_cons.mp hy with rfl | hmem
        · exact Nat.le_of_not_lt hlt
        · exact Nat.le_trans (Nat.le_of_not_lt hlt) (hx y hmem)

theorem sortResults_sorted (l : List ChunkResult) :
    (sortResults l).Pairwise (fun a b => a.chunkId ≤ b.chunkId) := by
  induction l with
  | nil => exact List.Pairwise.nil
  | cons r rs ih => exact insertByChunkId_sorted ih

theorem enumMatches_arr (a : EnumValue) (xs : List JVal) :
    enumMatches a (.arr xs) = false := by
  cases a <;> rfl

theorem enumHolds_arr (es : List EnumValue) (xs : List JVal) :
    enumHolds es (.arr xs) = false := by
  induction es with
  | nil => rfl
  | cons a rest ih =>
      simp [enumHolds, List.any_cons, enumMatches_arr]

theorem normalizeField_null (field : SchemaNode) :
    normalizeField field .null = .null := by
  cases field with
  | str d e => cases e <;> rfl
  | num d e => cases e <;> rfl
  | bool d e => cases e <;> rfl
  | arr d e items => cases e <;> rfl
  | obj d e props req => cases e <;> rfl

theorem normalizeField_enum_miss {field : SchemaNode} {es : List EnumValue}
    {v : JVal} (he : field.enumOf = some es) (hm : enumHolds es v = false) :
    normalizeField field v = .null := by
  cases hv : v with
  | null => exact normalizeField_null field
  | bool b =>
      cases field <;> simp_all [normalizeField, SchemaNode.enumOf]
  | num n =>
      cases field <;> simp_all [normalizeField, SchemaNode.enumOf]
  | str s =>
      cases field <;> simp_all [normalizeField, SchemaNode.enumOf]
  | arr xs =>
      cases field <;> simp_all [normalizeField, SchemaNode.enumOf]
  | obj fs =>
      cases field <;> simp_all [normalizeField, SchemaNode.enumOf]

theorem normalizeField_arr_filter {d : Option String} {items : SchemaNode}
    {es : List EnumValue} {xs : List JVal} (he : items.enumOf = some es)
    (hne : 0 < es.length) (ho : items.typeOf ≠ SchemaType.object)
    (ha : items.typeOf ≠ SchemaType.array) :
    normalizeField (.arr d none items) (.arr xs) =
      .arr (xs.filter (fun e => enumHolds es e)) := by
  cases items <;> simp_all [normalizeField, SchemaNode.enumOf, SchemaNode.typeOf]

theorem normalizeField_arr_enum_discard {d : Option String} {items : SchemaNode}
    {es : List EnumValue} {xs : List JVal} :
    normalizeField (.arr d (some es) items) (.arr xs) = .null := by
  simp [normalizeField, SchemaNode.enumOf, enumHolds_arr]

theorem normalizeParsed_obj (sch : SchemaField) (fs : Obj) :
    normalizeParsed sch (.obj fs) =
      .ok (sch.properties.map
        (fun p => (p.1, normalizeField p.2 ((alook p.1 fs).getD .null)))) := by
  exact mapE_eq_map (fun p _ => rfl)

theorem normalizeParsed_empty (sch : SchemaField) :
    normalizeParsed sch (.obj []) =
      .ok (sch.properties.map (fun p => (p.1, JVal.null))) := by
  rw [normalizeParsed_obj]
  congr 1
  exact List.map_congr_left (fun p _ => by rw [show alook p.1 ([] : Obj) = none from rfl, Option.getD_none, normalizeField_null])

theorem head?_mem {α : Type} {l : List α} {a : α} (h : l.head? = some a) :
    a ∈ l := by
  cases l with
  | nil => cases h
  | cons x xs =>
      injection h with h'
      subst h'
      exact List.mem_cons_self _ _

theorem matchesAt_length {tok l : Str} (h : matchesAt tok l = true) :
    tok.length ≤ l.length := by
  induction tok generalizing l with
  | nil => exact Nat.zero_le _
  | cons c cs ih =>
      cases l with
      | nil => simp [matchesAt] at h
      | cons b bs =>
          simp only [matchesAt, Bool.and_eq_true] at h
          exact Nat.succ_le_succ (ih h.2)

theorem indexOfFrom_some {text tok : Str} {s i : Nat}
    (h : indexOfFrom text tok s = some i) :
    i ≤ text.length ∧ i + tok.length ≤ text.length := by
  have hmem := head?_mem h
  rw [List.mem_filter] at hmem
  obtain ⟨hr, hp⟩ := hmem
  rw [List.mem_range] at hr
  have hi : i ≤ text.length := Nat.lt_succ_iff.mp hr
  simp only [Bool.and_eq_true, decide_eq_true_eq] at hp
  have hm := matchesAt_length hp.2
  rw [List.length_drop] at hm
  exact ⟨hi, by omega⟩

theorem buildPositions_length (text : Str) (toks : List Str) (s : Nat) :
    (buildPositions text toks s).length = toks.length := by
  induction toks generalizing s with
  | nil => rfl
  | cons tok rest ih =>
      cases h : indexOfFrom text tok s <;>
        simp [buildPositions, h, ih]

theorem buildPositions_bounds {text : Str} {toks : List Str} {s : Nat}
    (hall : allFoundAux text toks s = true) :
    ∀ p ∈ buildPositions text toks s, p.1 ≤ text.length ∧ p.2 ≤ text.length := by
  induction toks generalizing s with
  | nil => intro p hp; cases hp
  | cons tok rest ih =>
      intro p hp
      cases h : indexOfFrom text tok s with
      | none => simp [allFoundAux, h] at hall
      | some found =>
          simp only [allFoundAux, h] at hall
          simp only [buildPositions, h, List.mem_cons] at hp
          rcases hp with rfl | hmem
          · obtain ⟨h1, h2⟩ := indexOfFrom_some h
            exact ⟨h1, h2⟩
          · exact ih hall p hmem

theorem buildChunksLoop_spec (tokens : List Str) (text : Str)
    (positions : List (Nat × Nat)) (chunkTokens overlapTokens : Nat)
    (hct : 1 ≤ chunkTokens) (hlen : positions.length = tokens.length) :
    ∀ fuel i chunkId, tokens.length - i ≤ fuel →
      ∃ cs, buildChunksLoop tokens text positions chunkTokens overlapTokens
          fuel i chunkId = .ok cs ∧
        cs.map (fun c => c.id) = List.range' chunkId cs.length ∧
        (∀ c ∈ cs, (∃ p ∈ positions, c.startChar = p.1) ∧
          (∃ p ∈ positions, c.endChar = p.2)) ∧
        (i < tokens.length → cs ≠ []) := by
  intro fuel
  induction fuel with
  | zero =>
      intro i chunkId hfuel
      refine ⟨[], rfl, rfl, ?_, ?_⟩
      · intro c hc; cases hc
      · intro hi; omega
  | succ fuel ih =>
      intro i chunkId hfuel
      by_cases hi : i < tokens.length
      · have hend : ¬ (min (i + chunkTokens) tokens.length = 0) := by omega
        have hend1 : min (i + chunkTokens) tokens.length - 1 < positions.length := by
          rw [hlen]; omega
        have hilen : i < positions.length := by rw [hlen]; exact hi
        obtain ⟨pe, hpe⟩ := nth_isSome_of_lt hend1
        obtain ⟨ps, hps⟩ := nth_isSome_of_lt hilen
        have hstep : 1 ≤ max 1 (chunkTokens - overlapTokens) := Nat.le_max_left _ _
        obtain ⟨rest, hrest, hids, hbounds, _⟩ :=
          ih (i + max 1 (chunkTokens - overlapTokens)) (chunkId + 1) (by omega)
        refine ⟨{ id := chunkId
                  text := strSlice text ps.1 pe.2
                  startChar := ps.1
                  endChar := pe.2
                  tokens := (tokens.drop i).take (min (i + chunkTokens) tokens.length - i) } :: rest,
                ?_, ?_, ?_, ?_⟩
        · simp only [buildChunksLoop, if_pos hi, if_neg hend, hpe, hps, hrest]
        · simp only [List.map, List.length_cons, hids]
          rfl
        · intro c hc
          rcases List.mem_cons.mp hc with rfl | hmem
          · exact ⟨⟨ps, nth_mem hps, rfl⟩, ⟨pe, nth_mem hpe, rfl⟩⟩
          · exact hbounds c hmem
        · intro _
          exact List.cons_ne_nil _ _
      · refine ⟨[], ?_, rfl, ?_, ?_⟩
        · simp only [buildChunksLoop, if_neg hi]
        · intro c hc; cases hc
        · intro h'; exact absurd h' hi

theorem buildChunks_spec (text : Str) (chunkTokens overlapTokens : Nat)
    (tokenizer : Str → List Str) (hct : 1 ≤ chunkTokens) :
    ∃ cs, buildChunks text chunkTokens overlapTokens tokenizer = .ok cs ∧
      cs.map (fun c => c.id) = List.range cs.length ∧
      (∀ c ∈ cs,
        (∃ p ∈ buildPositions text (tokenizer text) 0, c.startChar = p.1) ∧
        (∃ p ∈ buildPositions text (tokenizer text) 0, c.endChar = p.2)) ∧
      (tokenizer text ≠ [] → cs ≠ []) ∧
      (tokenizer text = [] → cs = []) := by
  by_cases h0 : (tokenizer text).length = 0
  · refine ⟨[], ?_, rfl, ?_, ?_, fun _ => rfl⟩
    · simp only [buildChunks, if_pos h0]
    · intro c hc; cases hc
    · intro hne
      exact absurd (List.length_eq_zero.mp h0) hne
  · obtain ⟨cs, hcs, hids, hbounds, hne⟩ :=
      buildChunksLoop_spec (tokenizer text) text
        (buildPositions text (tokenizer text) 0) chunkTokens overlapTokens hct
        (buildPositions_length _ _ _) (tokenizer text).length 0 0 (by omega)
    refine ⟨cs, ?_, ?_, hbounds, ?_, ?_⟩
    · simp only [buildChunks, if_neg h0]
      exact hcs
    · rw [hids, List.range_eq_range']
    · intro _
      exact hne (by omega)
    · intro he
      exact absurd (by rw [he]; rfl) h0

theorem nth_some_lt {α : Type} {l : List α} {n : Nat} {a : α}
    (h : nth l n = some a) : n < l.length := by
  induction l generalizing n with
  | nil => cases h
  | cons x xs ih =>
      cases n with
      | zero => exact Nat.succ_pos _
      | succ m => exact Nat.succ_lt_succ (ih h)

theorem mem_nth {α : Type} {l : List α} {a : α} (h : a ∈ l) :
    ∃ n, nth l n = some a := by
  induction l with
  | nil => cases h
  | cons x xs ih =>
      rcases List.mem_cons.mp h with rfl | hmem
      · exact ⟨0, rfl⟩
      · obtain ⟨n, hn⟩ := ih hmem
        exact ⟨n + 1, hn⟩

theorem chunk_id_of_nth {cs : List Chunk} {i : Nat} {c : Chunk}
    (hids : cs.map (fun c => c.id) = List.range cs.length)
    (h : nth cs i = some c) : c.id = i := by
  have h1 : nth (cs.map (fun c => c.id)) i = some c.id := by
    rw [nth_map, h]; rfl
  rw [hids, nth_range (by simpa using nth_some_lt h)] at h1
  injection h1 with h2
  exact h2.symm

theorem nth_of_mem_ids {cs : List Chunk} {c : Chunk}
    (hids : cs.map (fun c => c.id) = List.range cs.length)
    (hc : c ∈ cs) : nth cs c.id = some c := by
  obtain ⟨n, hn⟩ := mem_nth hc
  rw [chunk_id_of_nth hids hn]
  exact hn

theorem buildChunksLoop_ok_ids {tokens : List Str} {text : Str}
    {positions : List (Nat × Nat)} {chunkTokens overlapTokens : Nat} :
    ∀ {fuel i chunkId : Nat} {cs : List Chunk},
      buildChunksLoop tokens text positions chunkTokens overlapTokens
        fuel i chunkId = .ok cs →
      cs.map (fun c => c.id) = List.range' chunkId cs.length := by
  intro fuel
  induction fuel with
  | zero =>
      intro i chunkId cs h
      injection h with h'
      subst h'
      rfl
  | succ fuel ih =>
      intro i chunkId cs h
      simp only [buildChunksLoop] at h
      by_cases hi : i < tokens.length
      · rw [if_pos hi] at h
        by_cases hz : min (i + chunkTokens) tokens.length = 0
        · rw [if_pos hz] at h
          cases h
        · rw [if_neg hz] at h
          cases hpe : nth positions (min (i + chunkTokens) tokens.length - 1) with
          | none => rw [hpe] at h; cases hps : nth positions i <;> rw [hps] at h <;> cases h
          | some pe =>
              rw [hpe] at h
              cases hps : nth positions i with
              | none => rw [hps] at h; cases h
              | some ps =>
                  rw [hps] at h
                  cases hrec : buildChunksLoop tokens text positions chunkTokens
                      overlapTokens fuel
                      (i + max 1 (chunkTokens - overlapTokens)) (chunkId + 1) with
                  | error e => rw [hrec] at h; cases h
                  | ok rest =>
                      rw [hrec] at h
                      injection h with h'
                      subst h'
                      simp only [List.map, List.length_cons, ih hrec]
                      rfl
      · rw [if_neg hi] at h
        injection h with h'
        subst h'
        rfl

theorem buildChunks_ok_ids {text : Str} {chunkTokens overlapTokens : Nat}
    {tokenizer : Str → List Str} {cs : List Chunk}
    (h : buildChunks text chunkTokens overlapTokens tokenizer = .ok cs) :
    cs.map (fun c => c.id) = List.range cs.length := by
  unfold buildChunks at h
  by_cases h0 : (tokenizer text).length = 0
  · rw [if_pos h0] at h
    injection h with h'
    subst h'
    rfl
  · rw [if_neg h0] at h
    rw [buildChunksLoop_ok_ids h, List.range_eq_range']

theorem processChunk_chunkId {env : Env} {cfg : Cfg} {lOpts : Obj}
    {sch : SchemaField} {c : Chunk} {r : ChunkResult}
    (h : processChunk env cfg lOpts sch c = .ok r) : r.chunkId = c.id := by
  unfold processChunk at h
  cases hn : normalizeParsed sch (parsedOf env.parseJson
      (rawOf (env.call c.id (windowRequest env cfg lOpts c.id)))) with
  | error e => rw [hn] at h; cases h
  | ok normalized =>
      rw [hn] at h
      injection h with h'
      subst h'
      rfl

theorem collect_forall₂ {chunks : List Chunk} {order : List Nat}
    (h : ∀ i ∈ order, ∃ c, nth chunks i = some c) :
    List.Forall₂ (fun i c => nth chunks i = some c) order
      (order.filterMap (nth chunks)) := by
  induction order with
  | nil => exact List.Forall₂.nil
  | cons i rest ih =>
      obtain ⟨c, hc⟩ := h i (List.mem_cons_self i rest)
      rw [List.filterMap_cons, hc]
      exact List.Forall₂.cons hc (ih (fun j hj => h j (List.mem_cons_of_mem i hj)))

theorem extract_ok_anatomy {cfg : Cfg} {env : Env} {order : List Nat}
    {text : Str} {opts : ExtractOptions} {res : ExtractResult}
    (h : extract cfg env order text opts = .ok res) :
    ∃ sch chunks collected,
      opts.schema = some sch ∧
      buildChunks text (opts.chunkTokens.getD 1500) (opts.overlapTokens.getD 300)
        (opts.tokenizer.getD env.defaultTok) = .ok chunks ∧
      collectResults env cfg (opts.llmCallOptions.getD []) sch chunks order =
        .ok collected ∧
      res = { json := reduceFinal env cfg (opts.llmCallOptions.getD [])
                (sortResults collected)
              chunkCount := chunks.length
              perFieldProvenance := provenance sch (sortResults collected)
              rawChunkResults := sortResults collected } := by
  unfold extract at h
  cases hsch : opts.schema with
  | none => rw [hsch] at h; simp only [] at h; cases h
  | some sch =>
      rw [hsch] at h
      simp only [] at h
      cases hch : buildChunks text (opts.chunkTokens.getD 1500)
          (opts.overlapTokens.getD 300) (opts.tokenizer.getD env.defaultTok) with
      | error e => rw [hch] at h; simp only [] at h; cases h
      | ok chunks =>
          rw [hch] at h
          simp only [] at h
          cases hcol : collectResults env cfg (opts.llmCallOptions.getD [])
              sch chunks order with
          | error e => rw [hcol] at h; simp only [] at h; cases h
          | ok collected =>
              rw [hcol] at h
              simp only [] at h
              refine ⟨sch, chunks, collected, rfl, rfl, hcol, ?_⟩
              injection h with h'
              exact h'.symm

theorem extract_ids {cfg : Cfg} {env : Env} {order : List Nat} {text : Str}
    {opts : ExtractOptions} {res : ExtractResult}
    (hres : extract cfg env order text opts = .ok res)
    (horder : order.Perm (List.range res.chunkCount)) :
    res.rawChunkResults.map (fun r => r.chunkId) = List.range res.chunkCount := by
  obtain ⟨sch, chunks, collected, hsch, hch, hcol, hresEq⟩ := extract_ok_anatomy hres
  subst hresEq
  have hcount : (ExtractResult.mk
      (reduceFinal env cfg (opts.llmCallOptions.getD []) (sortResults collected))
      chunks.length (provenance sch (sortResults collected))
      (sortResults collected)).chunkCount = chunks.length := rfl
  have hraw : (ExtractResult.mk
      (reduceFinal env cfg (opts.llmCallOptions.getD []) (sortResults collected))
      chunks.length (provenance sch (sortResults collected))
      (sortResults collected)).rawChunkResults = sortResults collected := rfl
  rw [hcount] at horder
  rw [show (ExtractResult.mk
      (reduceFinal env cfg (opts.llmCallOptions.getD []) (sortResults collected))
      chunks.length (provenance sch (sortResults collected))
      (sortResults collected)) =
    { json := reduceFinal env cfg (opts.llmCallOptions.getD []) (sortResults collected)
      chunkCount := chunks.length
      perFieldProvenance := provenance sch (sortResults collected)
      rawChunkResults := sortResults collected } from rfl] at hcount hraw
  rw [hcount, hraw]
  have hids := buildChunks_ok_ids hch
  have hmemb : ∀ i ∈ order, ∃ c, nth chunks i = some c := by
    intro i hi
    have hmem : i ∈ List.range chunks.length := horder.mem_iff.mp hi
    exact nth_isSome_of_lt (List.mem_range.mp hmem)
  have hF1 := collect_forall₂ hmemb
  have hF1' : List.Forall₂ (fun i c => c.id = i) order
      (order.filterMap (nth chunks)) :=
    hF1.imp (fun a c hac => chunk_id_of_nth hids hac)
  have hmid : (order.filterMap (nth chunks)).map (fun c => c.id) = order := by
    rw [map_eq_of_forall₂ hF1']
    exact List.map_id order
  unfold collectResults at hcol
  have hF2 := mapE_ok_forall₂ hcol
  have hF2' : List.Forall₂ (fun c r => r.chunkId = c.id)
      (order.filterMap (nth chunks)) collected :=
    hF2.imp (fun c r hcr => processChunk_chunkId hcr)
  have hcolids : collected.map (fun r => r.chunkId) =
      (order.filterMap (nth chunks)).map (fun c => c.id) :=
    map_eq_of_forall₂ hF2'
  have hperm : List.Perm ((sortResults collected).map (fun r => r.chunkId))
      (List.range chunks.length) := by
    have h2 := (sortResults_perm collected).map (fun r => r.chunkId)
    rw [hcolids, hmid] at h2
    exact h2.trans horder
  have hsorted : ((sortResults collected).map (fun r => r.chunkId)).Pairwise
      (fun a b => a ≤ b) :=
    List.pairwise_map.mpr (sortResults_sorted collected)
  have hrange : (List.range chunks.length).Pairwise (fun a b => a ≤ b) :=
    (List.pairwise_lt_range chunks.length).imp (fun h => Nat.le_of_lt h)
  exact List.eq_of_perm_of_sorted hperm hsorted hrange

/-- The premise of the per-window degradation rule: the completion call for
window `w` throws/rejects, or its response carries no content, or its
content does not parse as JSON. -/
def windowCallBad (env : Env) (cfg : Cfg) (lOpts : Obj) (w : Nat) : Prop :=
  env.call w (windowRequest env cfg lOpts w) = .fail ∨
  rawOf (env.call w (windowRequest env cfg lOpts w)) = "" ∨
  env.parseJson (rawOf (env.call w (windowRequest env cfg lOpts w))) = none

theorem processChunk_bad {env : Env} {cfg : Cfg} {lOpts : Obj}
    {sch : SchemaField} {c : Chunk}
    (hbad : windowCallBad env cfg lOpts c.id) :
    processChunk env cfg lOpts sch c =
      .ok { chunkId := c.id
            parsed := sch.properties.map (fun p => (p.1, JVal.null))
            raw := rawOf (env.call c.id (windowRequest env cfg lOpts c.id)) } := by
  have hparsed : parsedOf env.parseJson
      (rawOf (env.call c.id (windowRequest env cfg lOpts c.id))) = .obj [] := by
    rcases hbad with h | h | h
    · rw [h]; rfl
    · unfold parsedOf
      rw [if_pos h]
    · unfold parsedOf
      by_cases he : rawOf (env.call c.id (windowRequest env cfg lOpts c.id)) = ""
      · rw [if_pos he]
      · rw [if_neg he, h]
        rfl
  unfold processChunk
  rw [hparsed, normalizeParsed_empty]

theorem extract_ok_intro {cfg : Cfg} {env : Env} {order : List Nat}
    {text : Str} {opts : ExtractOptions} {sch : SchemaField}
    {chunks : List Chunk} {collected : List ChunkResult}
    (hsch : opts.schema = some sch)
    (hch : buildChunks text (opts.chunkTokens.getD 1500)
      (opts.overlapTokens.getD 300)
      (opts.tokenizer.getD env.defaultTok) = .ok chunks)
    (hcol : collectResults env cfg (opts.llmCallOptions.getD [])
      sch chunks order = .ok collected) :
    extract cfg env order text opts =
      .ok { json := reduceFinal env cfg (opts.llmCallOptions.getD [])
              (sortResults collected)
            chunkCount := chunks.length
            perFieldProvenance := provenance sch (sortResults collected)
            rawChunkResults := sortResults collected } := by
  unfold extract
  rw [hsch]
  simp only []
  rw [hch]
  simp only []
  rw [hcol]

/-- C1: for every window whose completion call fails or returns a
non-parsable response, the run still completes, that window's Window
Result maps every declared top-level schema field to null, and every other
window is still processed (its result is exactly what its own completion
call dictates). -/
theorem extract_window_failure_isolated (cfg : Cfg) (env : Env)
    (order : List Nat) (text : Str) (opts : ExtractOptions)
    (sch : SchemaField) (chunks : List Chunk) (w : Nat)
    (hsch : opts.schema = some sch)
    (hch : buildChunks text (opts.chunkTokens.getD 1500)
      (opts.overlapTokens.getD 300)
      (opts.tokenizer.getD env.defaultTok) = .ok chunks)
    (horder : order.Perm (List.range chunks.length))
    (hw : w < chunks.length)
    (hbad : windowCallBad env cfg (opts.llmCallOptions.getD []) w)
    (hothers : ∀ c ∈ chunks, c.id ≠ w →
      ∃ r, processChunk env cfg (opts.llmCallOptions.getD []) sch c = .ok r) :
    ∃ res, extract cfg env order text opts = .ok res ∧
      (∃ r, r ∈ res.rawChunkResults ∧ r.chunkId = w ∧
        r.parsed = sch.properties.map (fun p => (p.1, JVal.null))) ∧
      (∀ c ∈ chunks, ∃ r, r ∈ res.rawChunkResults ∧
        processChunk env cfg (opts.llmCallOptions.getD []) sch c = .ok r) := by
  have hids := buildChunks_ok_ids hch
  have hallok : ∀ c ∈ chunks,
      ∃ r, processChunk env cfg (opts.llmCallOptions.getD []) sch c = .ok r := by
    intro c hc
    by_cases hcw : c.id = w
    · exact ⟨_, processChunk_bad (by rw [hcw]; exact hbad)⟩
    · exact hothers c hc hcw
  have hmidmem : ∀ c ∈ order.filterMap (nth chunks), c ∈ chunks := by
    intro c hc
    obtain ⟨i, _, hi⟩ := List.mem_filterMap.mp hc
    exact nth_mem hi
  obtain ⟨collected, hcolmapE⟩ :=
    mapE_isOk (fun c hc => hallok c (hmidmem c hc))
  have hcol : collectResults env cfg (opts.llmCallOptions.getD [])
      sch chunks order = .ok collected := hcolmapE
  have hF2 := mapE_ok_forall₂ hcolmapE
  refine ⟨_, extract_ok_intro hsch hch hcol, ?_, ?_⟩
  · obtain ⟨cw, hcw⟩ := nth_isSome_of_lt (show w < chunks.length from hw)
    have hcwid : cw.id = w := chunk_id_of_nth hids hcw
    have hworder : w ∈ order := horder.mem_iff.mpr (List.mem_range.mpr hw)
    have hcwmid : cw ∈ order.filterMap (nth chunks) :=
      List.mem_filterMap.mpr ⟨w, hworder, hcw⟩
    obtain ⟨r, hrmem, hr⟩ := forall₂_mem_left hF2 hcwmid
    have hbadc := @processChunk_bad env cfg (opts.llmCallOptions.getD []) sch cw (by rw [hcwid]; exact hbad)
    rw [hbadc] at hr
    injection hr with hr'
    refine ⟨r, (sortResults_perm collected).mem_iff.mpr hrmem, ?_, ?_⟩
    · rw [← hr']; exact hcwid
    · rw [← hr']
  · intro c hc
    have hcid : c.id < chunks.length := by
      have : c.id ∈ chunks.map (fun c => c.id) := List.mem_map_of_mem _ hc
      rw [hids] at this
      exact List.mem_range.mp this
    have hcorder : c.id ∈ order := horder.mem_iff.mpr (List.mem_range.mpr hcid)
    have hcmid : c ∈ order.filterMap (nth chunks) :=
      List.mem_filterMap.mpr ⟨c.id, hcorder, nth_of_mem_ids hids hc⟩
    obtain ⟨r, hrmem, hr⟩ := forall₂_mem_left hF2 hcmid
    exact ⟨r, (sortResults_perm collected).mem_iff.mpr hrmem, hr⟩

/-- C5: in every successful run whose completion order covers each window
exactly once, the Window Result sequence returned in the metadata (the same
list handed to the reduction prompt) is exactly ascending in window id:
its id sequence is `0, 1, ..., chunkCount - 1`. -/
theorem extract_results_sorted_by_id (cfg : Cfg) (env : Env)
    (order : List Nat) (text : Str) (opts : ExtractOptions)
    (res : ExtractResult)
    (hres : extract cfg env order text opts = .ok res)
    (horder : order.Perm (List.range res.chunkCount)) :
    res.rawChunkResults.map (fun r => r.chunkId) = List.range res.chunkCount :=
  extract_ids hres horder

/-- C9: calling extract without a schema fails with the configuration
error, for every environment and completion order alike — in particular the
result does not depend on the completion-call collaborator, so no request
reaches it and no window is processed. -/
theorem extract_missing_schema (cfg : Cfg) (env : Env) (order : List Nat)
    (text : Str) (opts : ExtractOptions) (h : opts.schema = none) :
    extract cfg env order text opts = .error "schema is required" := by
  unfold extract
  rw [h]

/-- The premise of the reduction fallback: the reduction call throws, or
its response carries no content, or the content does not parse, or it
parses to a non-object (array or scalar). -/
def reduceCallBad (env : Env) (cfg : Cfg) (lOpts : Obj)
    (results : List ChunkResult) : Prop :=
  reduceOutcome env cfg lOpts results = .fail ∨
  (∃ content, reduceOutcome env cfg lOpts results = .resp content ∧
    (content.getD "" = "" ∨
     env.parseJson (content.getD "") = none ∨
     (∃ v, env.parseJson (content.getD "") = some v ∧ isPlainObject v = false)))

theorem reduceFinal_bad {env : Env} {cfg : Cfg} {lOpts : Obj}
    {results : List ChunkResult}
    (hbad : reduceCallBad env cfg lOpts results) :
    reduceFinal env cfg lOpts results = .obj [] := by
  unfold reduceFinal
  rcases hbad with h | ⟨content, hc, hrest⟩
  · rw [h]
  · rw [hc]
    simp only []
    rcases hrest with he | hp | ⟨v, hv, hnotobj⟩
    · rw [if_pos he]
    · by_cases he : content.getD "" = ""
      · rw [if_pos he]
      · rw [if_neg he, hp]
    · by_cases he : content.getD "" = ""
      · rw [if_pos he]
      · rw [if_neg he, hv]
        simp only [hnotobj]
        rw [if_neg Bool.false_ne_true]

/-- C3: if the reduction call fails, or its response does not parse, or
parses to a non-object, the final object is the empty object, while the
per-window results and the provenance map are still fully populated from
the orchestration phase (provenance is exactly the provenance of the
returned Window Results, and every window id below chunkCount has a
result). -/
theorem extract_reduce_fallback (cfg : Cfg) (env : Env) (order : List Nat)
    (text : Str) (opts : ExtractOptions) (sch : SchemaField)
    (res : ExtractResult)
    (hsch : opts.schema = some sch)
    (hres : extract cfg env order text opts = .ok res)
    (horder : order.Perm (List.range res.chunkCount))
    (hbad : reduceCallBad env cfg (opts.llmCallOptions.getD [])
      res.rawChunkResults) :
    res.json = .obj [] ∧
    res.perFieldProvenance = provenance sch res.rawChunkResults ∧
    (∀ i, i < res.chunkCount → ∃ r, r ∈ res.rawChunkResults ∧ r.chunkId = i) := by
  have hids := extract_ids hres horder
  obtain ⟨sch', chunks, collected, hsch', hch, hcol, hresEq⟩ :=
    extract_ok_anatomy hres
  have hschEq : sch' = sch := by
    rw [hsch] at hsch'
    injection hsch' with h'
    exact h'.symm
  subst hschEq
  subst hresEq
  refine ⟨reduceFinal_bad hbad, rfl, ?_⟩
  intro i hi
  have hmem : i ∈ List.range chunks.length := List.mem_range.mpr hi
  rw [← hids] at hmem
  obtain ⟨r, hr, hid⟩ := List.mem_map.mp hmem
  exact ⟨r, hr, hid⟩

theorem alook_provlist (props : List (String × SchemaNode))
    (results : List ChunkResult) (fid : String) :
    alook fid (props.map (fun p =>
        (p.1, (results.filter (nonNullField p.1)).map (fun r => r.chunkId)))) =
      (alook fid props).map (fun _ =>
        (results.filter (nonNullField fid)).map (fun r => r.chunkId)) := by
  induction props with
  | nil => rfl
  | cons p rest ih =>
      by_cases h : fid = p.1
      · subst h
        simp [alook]
      · simp [alook, h, ih]

/-- C2: in every successful run covering each window once, for every
declared top-level schema field name the provenance entry is exactly the
list of window ids whose normalized Window Result holds a non-null value
for that field, strictly ascending; and it is computed from the Window
Results alone — replacing the reduction call (and reduction prompt) by any
other leaves provenance and Window Results unchanged. -/
theorem extract_provenance_exact (cfg : Cfg) (env : Env) (order : List Nat)
    (text : Str) (opts : ExtractOptions) (sch : SchemaField)
    (res : ExtractResult)
    (hsch : opts.schema = some sch)
    (hres : extract cfg env order text opts = .ok res)
    (horder : order.Perm (List.range res.chunkCount)) :
    (∀ fid, fid ∈ sch.properties.map Prod.fst →
      alook fid res.perFieldProvenance =
        some ((res.rawChunkResults.filter (nonNullField fid)).map
          (fun r => r.chunkId)) ∧
      ((res.rawChunkResults.filter (nonNullField fid)).map
          (fun r => r.chunkId)).Pairwise (fun a b => a < b)) ∧
    (∀ f g, ∃ res2,
      extract cfg { env with reduceCall := f, reducePromptOf := g }
        order text opts = .ok res2 ∧
      res2.perFieldProvenance = res.perFieldProvenance ∧
      res2.rawChunkResults = res.rawChunkResults) := by
  have hids := extract_ids hres horder
  obtain ⟨sch', chunks, collected, hsch', hch, hcol, hresEq⟩ :=
    extract_ok_anatomy hres
  have hschEq : sch' = sch := by
    rw [hsch] at hsch'
    injection hsch' with h'
    exact h'.symm
  subst hschEq
  subst hresEq
  constructor
  · intro fid hfid
    constructor
    · show alook fid (provenance sch' (sortResults collected)) = _
      unfold provenance
      rw [alook_provlist]
      cases hal : alook fid sch'.properties with
      | none => exact absurd (alook_eq_none.mp hal) (by simpa using hfid)
      | some field => rfl
    · have hids' : (sortResults collected).map (fun r => r.chunkId) =
          List.range chunks.length := hids
      have h1 : ((sortResults collected).map (fun r => r.chunkId)).Pairwise
          (fun a b => a < b) := by
        rw [hids']
        exact List.pairwise_lt_range _
      have hpl : (sortResults collected).Pairwise
          (fun a b => a.chunkId < b.chunkId) := List.pairwise_map.mp h1
      exact List.pairwise_map.mpr
        (hpl.sublist (List.filter_sublist (sortResults collected)))
  · intro f g
    exact ⟨_, extract_ok_intro hsch hch hcol, rfl, rfl⟩

theorem alook_normmap (props : List (String × SchemaNode)) (fs : Obj)
    (fid : String) :
    alook fid (props.map (fun p =>
        (p.1, normalizeField p.2 ((alook p.1 fs).getD .null)))) =
      (alook fid props).map
        (fun field => normalizeField field ((alook fid fs).getD .null)) := by
  induction props with
  | nil => rfl
  | cons p rest ih =>
      by_cases h : fid = p.1
      · subst h
        simp [alook]
      · simp [alook, h, ih]

/-- C4 (amended): normalization of a parsed per-window object satisfies,
for every declared top-level field: an absent key normalizes to null; a
declared field enumeration nulls any non-member value; an array-typed
field with no field-level enumeration whose item type declares a non-empty
enumeration (and is neither object nor array) keeps the array filtered to
enumeration members; and undeclared keys never appear in the normalized
result.  (As stated the claim fails for an empty declared item
enumeration, which the code leaves unfiltered, and for an array field that
also declares a field-level enumeration, which is discarded to null.) -/
theorem normalize_per_field_rules (sch : SchemaField) (fs : Obj) :
    ∃ norm, normalizeParsed sch (.obj fs) = .ok norm ∧
      (∀ fid field, alook fid sch.properties = some field →
        (alook fid fs = none → alook fid norm = some .null) ∧
        (∀ es v, field.enumOf = some es → alook fid fs = some v →
          enumHolds es v = false → alook fid norm = some .null) ∧
        (∀ d es items xs, field = .arr d none items → items.enumOf = some es →
          es ≠ [] → items.typeOf ≠ SchemaType.object →
          items.typeOf ≠ SchemaType.array → alook fid fs = some (.arr xs) →
          alook fid norm = some (.arr (xs.filter (fun e => enumHolds es e))))) ∧
      (∀ k, k ∉ sch.properties.map Prod.fst → alook k norm = none) := by
  refine ⟨_, normalizeParsed_obj sch fs, ?_, ?_⟩
  · intro fid field hf
    refine ⟨?_, ?_, ?_⟩
    · intro habs
      rw [alook_normmap, hf, habs]
      simp only [Option.map, Option.getD]
      rw [normalizeField_null]
    · intro es v he hv hm
      rw [alook_normmap, hf, hv]
      simp only [Option.map, Option.getD]
      rw [normalizeField_enum_miss he hm]
    · intro d es items xs hfield he hne ho ha hv
      subst hfield
      rw [alook_normmap, hf, hv]
      simp only [Option.map, Option.getD]
      rw [normalizeField_arr_filter he (List.length_pos.mpr hne) ho ha]
  · intro k hk
    rw [alook_eq_none, List.map_map]
    simpa [Function.comp] using hk

/-- C4 counterexample: an array field whose item type declares an *empty*
enumeration.  The claim requires the array to be filtered to enumeration
members (here the empty array); the code's `itemEnum.length` guard skips
filtering and keeps the non-member item. -/
theorem normalize_empty_item_enum_counterexample :
    normalizeParsed
        { properties := [("f", SchemaNode.arr none none
            (SchemaNode.str none (some [])))] }
        (.obj [("f", .arr [.str "x"])]) =
      .ok [("f", JVal.arr [JVal.str "x"])] ∧
    [JVal.str "x"].filter (fun e => enumHolds [] e) = [] ∧
    JVal.arr [JVal.str "x"] ≠ JVal.arr [] :=
  ⟨rfl, rfl, by simp⟩

/-- C10: an array-typed top-level field that itself declares an
enumeration discards every parsed array entirely to null: the field-level
membership test runs first and no array is identical to any scalar
enumeration member. -/
theorem array_field_own_enum_discards (sch : SchemaField) (fs : Obj)
    (fid : String) (d : Option String) (es : List EnumValue)
    (items : SchemaNode) (xs : List JVal)
    (hf : alook fid sch.properties = some (.arr d (some es) items))
    (hv : alook fid fs = some (.arr xs)) :
    ∃ norm, normalizeParsed sch (.obj fs) = .ok norm ∧
      alook fid norm = some JVal.null := by
  refine ⟨_, normalizeParsed_obj sch fs, ?_⟩
  rw [alook_normmap, hf, hv]
  simp only [Option.map, Option.getD]
  rw [normalizeField_arr_enum_discard]

/-- C6 (amended): for every text, tokenizer, overlapSize (including every
overlapSize ≥ windowSize) and every windowSize ≥ 1, the window builder
terminates with a finite window sequence whose ids are 0-based, strictly
increasing, and equal to each window's position (the id sequence is
`range`); the cursor advance is `max 1 (windowSize - overlapSize) ≥ 1` by
construction.  (As stated the claim also covers windowSize = 0, where the
code instead throws a TypeError on a non-empty token sequence.) -/
theorem buildChunks_terminates_ids (text : Str) (tokzr : Str → List Str)
    (chunkTokens overlapTokens : Nat) (h : 1 ≤ chunkTokens) :
    ∃ cs, buildChunks text chunkTokens overlapTokens tokzr = .ok cs ∧
      cs.map (fun c => c.id) = List.range cs.length := by
  obtain ⟨cs, h1, h2, _, _, _⟩ :=
    buildChunks_spec text chunkTokens overlapTokens tokzr h
  exact ⟨cs, h1, h2⟩

/-- C6 counterexample: with windowSize 0 and a two-token document the
builder does not return a window sequence: `tokenCharPositions[endToken-1]`
is `tokenCharPositions[-1]`, so the first iteration throws a TypeError. -/
theorem buildChunks_zero_window_counterexample :
    buildChunks ['a', 'b'] 0 0 (fun _ => [['a'], ['b']]) = .error () := rfl

/-- C7: for windowSize ≥ 1 and a tokenizer whose tokens are all locatable
in order (the spec §4.1 tokenizer contract), a document with at least one
token yields at least one window, every produced window's character span
lies within the document bounds, and a document with zero tokens yields
zero windows. -/
theorem buildChunks_nonempty_bounds (text : Str) (tokzr : Str → List Str)
    (chunkTokens overlapTokens : Nat) (hct : 1 ≤ chunkTokens)
    (hfound : allFound text (tokzr text) = true) :
    ∃ cs, buildChunks text chunkTokens overlapTokens tokzr = .ok cs ∧
      (tokzr text ≠ [] → cs ≠ []) ∧
      (∀ c ∈ cs, c.startChar ≤ text.length ∧ c.endChar ≤ text.length) ∧
      (tokzr text = [] → cs = []) := by
  obtain ⟨cs, h1, _, hbounds, hne, hemp⟩ :=
    buildChunks_spec text chunkTokens overlapTokens tokzr hct
  refine ⟨cs, h1, hne, ?_, hemp⟩
  intro c hc
  obtain ⟨⟨ps, hpsmem, hps⟩, ⟨pe, hpemem, hpe⟩⟩ := hbounds c hc
  have hb1 := buildPositions_bounds hfound ps hpsmem
  have hb2 := buildPositions_bounds hfound pe hpemem
  rw [hps, hpe]
  exact ⟨hb1.1, hb2.2⟩

theorem alook_requestBase_other (d c l : Obj) (p : String) (k : String)
    (hk1 : k ≠ "model") (hk2 : k ≠ "messages") :
    alook k (requestBase d c l p) =
      match alook k l with
      | some v => some v
      | none =>
          match alook k c with
          | some v => some v
          | none => alook k (ospread [("stream", .bool false)] d) := by
  unfold requestBase
  rw [alook_ospread]
  rw [show alook k [("model", (alook "model" c).getD JVal.null),
      ("messages", JVal.arr [JVal.obj [("role", JVal.str "user"),
        ("content", JVal.str p)]])] = none by simp [alook, hk1, hk2]]
  rw [alook_ospread, alook_ospread]

theorem alook_requestBase_model (d c l : Obj) (p : String) :
    alook "model" (requestBase d c l p) =
      some ((alook "model" c).getD .null) := by
  unfold requestBase
  rw [alook_ospread]
  rw [show alook "model" [("model", (alook "model" c).getD JVal.null),
      ("messages", JVal.arr [JVal.obj [("role", JVal.str "user"),
        ("content", JVal.str p)]])] =
    some ((alook "model" c).getD JVal.null) by simp [alook]]

theorem alook_mkRequestBody_other (d c l : Obj) (p : String) (k : String)
    (hk1 : k ≠ "model") (hk2 : k ≠ "messages") (hk3 : k ≠ "response_format") :
    alook k (mkRequestBody d c l p) =
      match alook k l with
      | some v => some v
      | none =>
          match alook k c with
          | some v => some v
          | none => alook k (ospread [("stream", .bool false)] d) := by
  unfold mkRequestBody
  cases hrf : alook "response_format" (requestBase d c l p) with
  | some v =>
      simp only []
      by_cases ht : jsTruthy v
      · rw [if_pos ht]
        exact alook_requestBase_other d c l p k hk1 hk2
      · rw [if_neg ht, alook_ospread]
        rw [show alook k [("response_format", jsonObjectFormat)] = none by
          simp [alook, hk3]]
        exact alook_requestBase_other d c l p k hk1 hk2
  | none =>
      simp only []
      rw [alook_ospread]
      rw [show alook k [("response_format", jsonObjectFormat)] = none by
        simp [alook, hk3]]
      exact alook_requestBase_other d c l p k hk1 hk2

theorem alook_mkRequestBody_model (d c l : Obj) (p : String) :
    alook "model" (mkRequestBody d c l p) =
      some ((alook "model" c).getD .null) := by
  unfold mkRequestBody
  cases hrf : alook "response_format" (requestBase d c l p) with
  | some v =>
      simp only []
      by_cases ht : jsTruthy v
      · rw [if_pos ht]
        exact alook_requestBase_model d c l p
      · rw [if_neg ht, alook_ospread]
        rw [show alook "model" [("response_format", jsonObjectFormat)] = none by
          simp [alook]]
        exact alook_requestBase_model d c l p
  | none =>
      simp only []
      rw [alook_ospread]
      rw [show alook "model" [("response_format", jsonObjectFormat)] = none by
        simp [alook]]
      exact alook_requestBase_model d c l p

/-- C8 (amended): every completion request — the per-window and the
reduction requests are built by the same constructor — merges the three
parameter layers with per-call overrides over per-instance defaults over
library defaults for every parameter except `model`, `messages` and
`response_format`; the model identifier is instead always forced to the
per-instance `clientParams.model`, so a per-call model override is
ignored (`messages` is the prompt message and a missing/falsy
`response_format` is defaulted to the JSON-object format). -/
theorem request_layer_precedence (d c l : Obj) (p : String) :
    (∀ k, k ≠ "model" → k ≠ "messages" → k ≠ "response_format" →
      alook k (mkRequestBody d c l p) =
        match alook k l with
        | some v => some v
        | none =>
            match alook k c with
            | some v => some v
            | none => alook k (ospread [("stream", .bool false)] d)) ∧
    alook "model" (mkRequestBody d c l p) =
      some ((alook "model" c).getD .null) :=
  ⟨fun k h1 h2 h3 => alook_mkRequestBody_other d c l p k h1 h2 h3,
   alook_mkRequestBody_model d c l p⟩

/-- C8 counterexample: a per-call `model` override does not take
precedence: with a per-instance model and a conflicting per-call model the
issued request carries the per-instance one. -/
theorem request_model_override_ignored :
    alook "model" (mkRequestBody [] [("model", JVal.str "instance-model")]
        [("model", JVal.str "call-model")] "p") =
      some (JVal.str "instance-model") ∧
    (some (JVal.str "instance-model") : Option JVal) ≠
      some (JVal.str "call-model") := by
  refine ⟨rfl, ?_⟩
  intro h
  injection h with h1
  injection h1 with h2
  exact absurd h2 (by decide)

/-- Concrete two-token tokenizer used by the witnesses. -/
def tokW : Str → List Str := fun _ => [['a'], ['b']]

/-- Concrete one-field schema used by the witnesses. -/
def schW : SchemaField := { properties := [("issue", SchemaNode.str none none)] }

/-- Concrete configuration used by the witnesses. -/
def cfgW : Cfg := { dParams := [], cParams := [("model", JVal.str "m")] }

/-- Concrete environment used by the witnesses: window 0's call fails,
window 1 answers with a response parsing to `issue = "B"`, the reduction
call fails. -/
def envW : Env :=
  { parseJson := fun s =>
      if s = "RESP" then some (.obj [("issue", .str "B")]) else none
    defaultTok := tokW
    promptOf := fun _ => ""
    reducePromptOf := fun _ => ""
    call := fun i _ => if i = 0 then .fail else .resp (some "RESP")
    reduceCall := fun _ => .fail }

/-- Concrete options used by the witnesses. -/
def optsW : ExtractOptions :=
  { schema := some schW
    chunkTokens := some 1
    overlapTokens := some 0
    tokenizer := some tokW }

/-- The document of the witnesses. -/
def textW : Str := ['a', 'b']

/-- The windows the builder produces for `textW` under `tokW`. -/
def chunksW : List Chunk :=
  [⟨0, ['a'], 0, 1, [['a']]⟩, ⟨1, ['b'], 1, 2, [['b']]⟩]

/-- The extraction result of the witness run (completion order `[1, 0]`). -/
def resW : ExtractResult :=
  { json := .obj []
    chunkCount := 2
    perFieldProvenance := [("issue", [1])]
    rawChunkResults :=
      [⟨0, [("issue", JVal.null)], ""⟩, ⟨1, [("issue", JVal.str "B")], "RESP"⟩] }

theorem extract_window_failure_isolated_witness :
    ∃ res, extract cfgW envW [1, 0] textW optsW = .ok res ∧
      (∃ r, r ∈ res.rawChunkResults ∧ r.chunkId = 0 ∧
        r.parsed = schW.properties.map (fun p => (p.1, JVal.null))) ∧
      (∀ c ∈ chunksW, ∃ r, r ∈ res.rawChunkResults ∧
        processChunk envW cfgW (optsW.llmCallOptions.getD []) schW c = .ok r) :=
  extract_window_failure_isolated cfgW envW [1, 0] textW optsW schW chunksW 0
    rfl rfl (by decide) (by decide) (Or.inl rfl)
    (by
      intro c hc hne
      rcases List.mem_cons.mp hc with rfl | hc'
      · exact absurd rfl hne
      · rcases List.mem_cons.mp hc' with rfl | hc''
        · exact ⟨_, rfl⟩
        · cases hc'')

theorem extract_provenance_exact_witness :
    (∀ fid, fid ∈ schW.properties.map Prod.fst →
      alook fid resW.perFieldProvenance =
        some ((resW.rawChunkResults.filter (nonNullField fid)).map
          (fun r => r.chunkId)) ∧
      ((resW.rawChunkResults.filter (nonNullField fid)).map
          (fun r => r.chunkId)).Pairwise (fun a b => a < b)) ∧
    (∀ f g, ∃ res2,
      extract cfgW { envW with reduceCall := f, reducePromptOf := g }
        [1, 0] textW optsW = .ok res2 ∧
      res2.perFieldProvenance = resW.perFieldProvenance ∧
      res2.rawChunkResults = resW.rawChunkResults) :=
  extract_provenance_exact cfgW envW [1, 0] textW optsW schW resW
    rfl rfl (by decide)

theorem extract_reduce_fallback_witness :
    resW.json = .obj [] ∧
    resW.perFieldProvenance = provenance schW resW.rawChunkResults ∧
    (∀ i, i < resW.chunkCount →
      ∃ r, r ∈ resW.rawChunkResults ∧ r.chunkId = i) :=
  extract_reduce_fallback cfgW envW [1, 0] textW optsW schW resW
    rfl rfl (by decide) (Or.inl rfl)

theorem extract_results_sorted_by_id_witness :
    resW.rawChunkResults.map (fun r => r.chunkId) = List.range resW.chunkCount :=
  extract_results_sorted_by_id cfgW envW [1, 0] textW optsW resW rfl (by decide)

/-- Options with the schema left out, for the C9 witness. -/
def optsNoSchema : ExtractOptions := { schema := none }

theorem extract_missing_schema_witness :
    extract cfgW envW [] [] optsNoSchema = .error "schema is required" :=
  extract_missing_schema cfgW envW [] [] optsNoSchema rfl

/-- A three-field schema exercising all normalization rules: an enumerated
string, an array with an enumerated scalar item type, and a plain number. -/
def schN : SchemaField :=
  { properties :=
      [("a", SchemaNode.str none (some [EnumValue.str "x"])),
       ("tags", SchemaNode.arr none none (SchemaNode.str none (some [EnumValue.str "ok"]))),
       ("b", SchemaNode.num none none)] }

/-- A parsed response for `schN`: non-member scalar, mixed array, `b`
absent. -/
def fsN : Obj :=
  [("a", JVal.str "zzz"), ("tags", JVal.arr [JVal.str "ok", JVal.str "bad"])]

theorem normalize_per_field_rules_witness :
    ∃ norm, normalizeParsed schN (.obj fsN) = .ok norm ∧
      alook "b" norm = some JVal.null ∧
      alook "a" norm = some JVal.null ∧
      alook "tags" norm = some (JVal.arr [JVal.str "ok"]) ∧
      alook "zzz" norm = none := by
  obtain ⟨norm, hok, hfields, hextra⟩ := normalize_per_field_rules schN fsN
  refine ⟨norm, hok, ?_, ?_, ?_, ?_⟩
  · exact (hfields "b" (SchemaNode.num none none) rfl).1 rfl
  · exact (hfields "a" (SchemaNode.str none (some [EnumValue.str "x"])) rfl).2.1
      [EnumValue.str "x"] (JVal.str "zzz") rfl rfl rfl
  · exact (hfields "tags"
      (SchemaNode.arr none none (SchemaNode.str none (some [EnumValue.str "ok"]))) rfl).2.2
      none [EnumValue.str "ok"] (SchemaNode.str none (some [EnumValue.str "ok"]))
      [JVal.str "ok", JVal.str "bad"] rfl rfl (List.cons_ne_nil _ _)
      (by decide) (by decide) rfl
  · exact hextra "zzz" (by decide)

theorem buildChunks_terminates_ids_witness :
    ∃ cs, buildChunks textW 1 2 tokW = .ok cs ∧
      cs.map (fun c => c.id) = List.range cs.length :=
  buildChunks_terminates_ids textW tokW 1 2 (by decide)

theorem buildChunks_nonempty_bounds_witness :
    ∃ cs, buildChunks textW 1 0 tokW = .ok cs ∧
      (tokW textW ≠ [] → cs ≠ []) ∧
      (∀ c ∈ cs, c.startChar ≤ textW.length ∧ c.endChar ≤ textW.length) ∧
      (tokW textW = [] → cs = []) :=
  buildChunks_nonempty_bounds textW tokW 1 0 (by decide) (by decide)

/-- A schema whose array field itself declares an enumeration, for the C10
witness. -/
def schE : SchemaField :=
  { properties :=
      [("tags", SchemaNode.arr none (some [EnumValue.str "x"])
          (SchemaNode.str none none))] }

theorem array_field_own_enum_discards_witness :
    ∃ norm, normalizeParsed schE (.obj [("tags", JVal.arr [JVal.str "x"])]) =
        .ok norm ∧
      alook "tags" norm = some JVal.null :=
  array_field_own_enum_discards schE [("tags", JVal.arr [JVal.str "x"])]
    "tags" none [EnumValue.str "x"] (SchemaNode.str none none) [JVal.str "x"]
    rfl rfl

theorem request_layer_precedence_witness :
    alook "temperature" (mkRequestBody [("stream", JVal.bool true)]
        [("model", JVal.str "m"), ("temperature", JVal.num 1)]
        [("temperature", JVal.num 2)] "p") = some (JVal.num 2) ∧
    alook "model" (mkRequestBody [("stream", JVal.bool true)]
        [("model", JVal.str "m"), ("temperature", JVal.num 1)]
        [("temperature", JVal.num 2)] "p") = some (JVal.str "m") := by
  have h := request_layer_precedence [("stream", JVal.bool true)]
    [("model", JVal.str "m"), ("temperature", JVal.num 1)]
    [("temperature", JVal.num 2)] "p"
  constructor
  · rw [h.1 "temperature" (by decide) (by decide) (by decide)]
    rfl
  · rw [h.2]
    rfl
